import Mathlib

/-!
Verification development for the Telegram Desktop clip-reader step machine
(`Telegram/SourceFiles/media/media_clip_reader.h`) and the message-field
mention-tag MIME conversion (`Telegram/SourceFiles/chat_helpers/message_field.cpp`).

The C++ is shallowly embedded: machine `int` values become `Int` (overflow is
modelled explicitly where it matters, in `qToIntDigits`), Qt strings become
`List Char`, and `QAtomicInt` fields become plain `Int` fields read and
written in a single-threaded interleaving model.
-/

/-- External Qt enum `ImageRoundRadius` (opaque to this code: only carried
around inside a `FrameRequest`). -/
inductive ImageRoundRadius
  | None
  | Small
  | Large
  | Ellipse
deriving DecidableEq, Repr

/-- Embedding of `Media::Clip::FrameRequest` (media_clip_reader.h lines 34-44). -/
structure FrameRequest where
  factor : Int := 0
  framew : Int := 0
  frameh : Int := 0
  outerw : Int := 0
  outerh : Int := 0
  radius : ImageRoundRadius := ImageRoundRadius.None
deriving DecidableEq, Repr

/-- Embedding of `FrameRequest::valid()`: `return factor > 0;` (line 36). -/
def FrameRequest.valid (r : FrameRequest) : Bool :=
  decide (0 < r.factor)

/-- Sentinel `ReaderSteps::WaitingForDimensionsStep` (line 47). -/
def WaitingForDimensionsStep : Int := -3

/-- Sentinel `ReaderSteps::WaitingForRequestStep` (line 48). -/
def WaitingForRequestStep : Int := -2

/-- Sentinel `ReaderSteps::WaitingForFirstFrameStep` (line 49). -/
def WaitingForFirstFrameStep : Int := -1

/-- The member initializer of `Reader::_step` (line 140):
`mutable QAtomicInt _step = WaitingForDimensionsStep;`. -/
def initialStep : Int := WaitingForDimensionsStep

/-- The shown slot index for a working (non-negative) step value, from the
comment on line 139: `show ((state + 1) / 2) % 3 state`. -/
def showIndex (step : Nat) : Nat := (step + 1) / 2 % 3

/-- The written slot index for a working (non-negative) step value, from the
comment on line 139: `write ((state + 3) / 2)` (taken `% 3` like the shown
slot, as the spec states). -/
def writeIndex (step : Nat) : Nat := (step + 3) / 2 % 3

/-- Embedding of `Reader::started()`, which reads only `_step` (lines 103-106):
the pure
function of the loaded step value it computes:
`(step == WaitingForFirstFrameStep) || (step >= 0)`. -/
def startedOfStep (step : Int) : Bool :=
  (step == WaitingForFirstFrameStep) || decide (0 ≤ step)

/-- Which of the two step-advancing operations was called.  Both advance the
same counter by the same granularity. -/
inductive Move
  | nextShow
  | nextWrite
deriving DecidableEq, Repr

/-- Modelled from the spec: the bodies of `Reader::moveToNextShow` and
`Reader::moveToNextWrite` are not under src/ (only declared, lines 159-160);
the spec states that each "atomically increment[s] the step counter by one". -/
def moveStep (_ : Move) (step : Int) : Int := step + 1

/-- The step counter after a sequence of `moveToNextShow`/`moveToNextWrite`
calls starting from `step`. -/
def applyMoves (moves : List Move) (step : Int) : Int :=
  moves.foldl (fun s m => moveStep m s) step

/-- One slot of `Reader::_frames[3]` (`Reader::Frame`, lines 141-154).  The
`QPixmap pix` / `QImage original` bitmaps are opaque to the step machine and
are modelled as abstract handles. -/
structure Frame where
  pix : Nat := 0
  original : Nat := 0
  request : FrameRequest := {}
  displayed : Int := 0
  positionMs : Int := 0
deriving DecidableEq, Repr

/-- The show-slot index as a `Fin 3`. -/
def showSlot (step : Nat) : Fin 3 :=
  ⟨showIndex step, Nat.mod_lt _ (by decide)⟩

/-- The state of a `Reader` visible to the frame-buffer step machine:
`_step`, `_frames[3]`, and (modelled from the spec) the currently live
`FrameRequest` that `frameToShow` validates slot contents against. -/
structure Reader where
  step : Int := initialStep
  frames : Fin 3 → Frame := fun _ => {}
  liveRequest : FrameRequest := {}

/-- Modelled from the spec: the body of `Reader::frameToShow` is not under
src/ (declared line 156, `// 0 means not ready`).  The spec says it "returns
the slot at `showIndex` if its content is valid for the current request, else
null"; "a slot whose `sourceRequest` differs from the live request is treated
as 'not ready'", and before playback (negative step) no frame is ready. -/
def Reader.frameToShow (r : Reader) : Option Frame :=
  if 0 ≤ r.step then
    let f := r.frames (showSlot r.step.toNat)
    if f.request = r.liveRequest then some f else none
  else none

/-- Embedding of `Reader::currentDisplayed()` (lines 87-90):
`frame ? (frame->displayed.loadAcquire() != 0) : true`. -/
def Reader.currentDisplayed (r : Reader) : Bool :=
  match r.frameToShow with
  | some frame => decide (frame.displayed ≠ 0)
  | none => true

/-- A concrete request used by witnesses. -/
def reqA : FrameRequest := { factor := 1 }

/-- A concrete playing reader whose slots all hold `reqA`. -/
def rdrA : Reader := { step := 0, frames := fun _ => { request := reqA }, liveRequest := reqA }

/-- A freshly constructed reader (step = WaitingForDimensionsStep). -/
def rdrB : Reader := {}

/-- Modelled from the spec: `ReaderPrivate`'s frame-timing code is not under
src/.  The comment on `Frame::positionMs` (lines 151-153) says it "Should be
counted from the end, so that positionMs <= _durationMs": a delivered frame's
timestamp is the clip duration minus the remaining-to-end time. -/
def framePositionMs (durationMs fromEndMs : Int) : Int := durationMs - fromEndMs

/-- Modelled from the spec: the `positionMs` values of a sequence of delivered
frames, given the clip duration and each frame's remaining-to-end time (which
is non-negative, and non-increasing as video playback advances). -/
def deliveredPositions (durationMs : Int) (fromEnds : List Int) : List Int :=
  fromEnds.map (framePositionMs durationMs)

/-- The characters of the mention scheme literal "mention://" used by
`FieldTagMimeProcessor::tagFromMimeTag` (line 41) and `ConvertTagToMimeTag`
(line 56) in message_field.cpp. -/
def mentionHead : List Char := ("mention://").toList

/-- Numeric value of one ASCII digit character. -/
def digitVal (c : Char) : Nat := c.toNat - ('0').toNat

/-- Numeric value of a digit string, most significant digit first. -/
def digitsToNat (ds : List Char) : Nat :=
  ds.foldl (fun a c => 10 * a + digitVal c) 0

/-- The maximal run of ASCII digits at the end of a string. -/
def trailingDigits (s : List Char) : List Char :=
  ((s.reverse).takeWhile Char.isDigit).reverse

/-- Auxiliary for PCRE dollar semantics: the subject with one final newline
removed, if there is one (with no DollarEndOnly option, `$` also matches
just before a final newline). -/
def chopFinalNewline (s : List Char) : List Char :=
  if s.getLast? = some '\n' then s.dropLast else s

/-- The literal-end part of matching `":(\d+)$"`: succeeds iff the string
ends in a nonempty run of ASCII digits directly preceded by a colon; the
capture is that digit run. -/
def matchColonDigitsEnd (s : List Char) : Option (List Char) :=
  if trailingDigits s ≠ [] ∧
      (s.take (s.length - (trailingDigits s).length)).getLast? = some ':'
  then some (trailingDigits s) else none

/-- Model of matching the Qt regular expression `":(\d+)$"` against a string
(line 42), with PCRE dollar semantics: `$` matches at the very end of the
subject or just before one final newline, so the pattern is matched against
the subject with one final newline removed.  The match (and so
`capturedLength()`) never includes that newline. -/
def matchColonDigitsSuffix (s : List Char) : Option (List Char) :=
  matchColonDigitsEnd (chopFinalNewline s)

/-- Model of `QString::toInt` on the all-digit capture of the regex (line 43):
the decimal value when it fits in a 32-bit signed int, otherwise 0 (Qt
returns 0 on overflow). -/
def qToIntDigits (ds : List Char) : Int :=
  if digitsToNat ds ≤ 2147483647 then (digitsToNat ds : Int) else 0

/-- Embedding of `FieldTagMimeProcessor::tagFromMimeTag` (message_field.cpp lines 40-49),
with `AuthSession::CurrentUserId()` (not under src/) passed as the `userId`
parameter.  A mention tag is kept only when the `":<digits>"` suffix parses
to the current user id, and that suffix (colon included: `capturedLength()`
is the length of the whole match) is removed. -/
def tagFromMimeTag (userId : Int) (mimeTag : List Char) : List Char :=
  if mentionHead.isPrefixOf mimeTag = true then
    match matchColonDigitsSuffix mimeTag with
    | none => []
    | some ds =>
      if qToIntDigits ds ≠ userId then []
      else mimeTag.take (mimeTag.length - (ds.length + 1))
  else mimeTag

/-- Decimal digit characters of a natural number, most significant first. -/
def natDigits (n : Nat) : List Char :=
  if h : n < 10 then [Nat.digitChar n]
  else natDigits (n / 10) ++ [Nat.digitChar (n % 10)]
decreasing_by exact Nat.div_lt_self (by omega) (by decide)

/-- Model of `QString::number` on an int: decimal digits, minus-prefixed when
negative. -/
def qNumber (n : Int) : List Char :=
  if n < 0 then '-' :: natDigits (-n).toNat else natDigits n.toNat

/-- Embedding of `ConvertTagToMimeTag` (message_field.cpp lines 55-60), with
`AuthSession::CurrentUserId()` passed as the `userId` parameter:
`tagId + ':' + QString::number(AuthSession::CurrentUserId())` for mention
tags, identity otherwise. -/
def ConvertTagToMimeTag (userId : Int) (tagId : List Char) : List Char :=
  if mentionHead.isPrefixOf tagId = true then tagId ++ [':'] ++ qNumber userId
  else tagId

theorem applyMoves_eq_add_length (moves : List Move) (step : Int) :
    applyMoves moves step = step + moves.length := by
  induction moves generalizing step with
  | nil => simp [applyMoves]
  | cons m ms ih =>
    simp only [applyMoves, List.foldl_cons, List.length_cons] at *
    rw [ih]
    simp [moveStep]
    omega

/-- C1: for every step counter value step >= 0, the shown slot index
((step+1)/2) % 3 and the written slot index ((step+3)/2) % 3 are distinct;
hence under any sequence of moveToNextShow/moveToNextWrite calls (each
changing the counter by one), the slot being shown is never the slot being
written. -/
theorem show_write_slots_disjoint :
    (∀ step : Nat, showIndex step ≠ writeIndex step) ∧
    (∀ (moves : List Move) (s0 : Int), 0 ≤ s0 →
      showIndex (applyMoves moves s0).toNat ≠ writeIndex (applyMoves moves s0).toNat) := by
  constructor
  · intro step
    simp only [showIndex, writeIndex]
    omega
  · intro moves s0 _
    simp only [showIndex, writeIndex]
    omega

theorem show_write_slots_disjoint_witness :
    showIndex (applyMoves [Move.nextShow, Move.nextWrite] 0).toNat ≠
      writeIndex (applyMoves [Move.nextShow, Move.nextWrite] 0).toNat :=
  show_write_slots_disjoint.2 [Move.nextShow, Move.nextWrite] 0 (by decide)

/-- C3: once the step counter is non-negative, every subsequent
moveToNextShow/moveToNextWrite call increments it by exactly one, so along
any sequence of calls the counter is monotonically non-decreasing and never
returns to a negative sentinel value. -/
theorem step_monotone_after_start (moves : List Move) (s0 : Int) (h : 0 ≤ s0) :
    applyMoves moves s0 = s0 + moves.length ∧
    s0 ≤ applyMoves moves s0 ∧
    0 ≤ applyMoves moves s0 ∧
    (∀ pre suf : List Move, moves = pre ++ suf →
      applyMoves pre s0 ≤ applyMoves moves s0) := by
  have hlen := applyMoves_eq_add_length moves s0
  refine ⟨hlen, by omega, by omega, ?_⟩
  intro pre suf hsplit
  have hpre := applyMoves_eq_add_length pre s0
  have : moves.length = pre.length + suf.length := by
    subst hsplit; simp
  omega

theorem step_monotone_after_start_witness :
    applyMoves [Move.nextWrite, Move.nextShow] 2 =
      2 + ([Move.nextWrite, Move.nextShow] : List Move).length :=
  (step_monotone_after_start [Move.nextWrite, Move.nextShow] 2 (by decide)).1

/-- C5: `Reader::started()` is a pure function of the current step value only
and returns true iff that value is `WaitingForFirstFrameStep` (-1) or
non-negative. -/
theorem started_iff_step :
    ∀ step : Int, startedOfStep step = true ↔
      (step = WaitingForFirstFrameStep ∨ 0 ≤ step) := by
  intro step
  simp [startedOfStep]

/-- C6: the pre-playback sentinels are exactly -3, -2, -1, and a freshly
constructed Reader's step counter is `WaitingForDimensionsStep` (-3). -/
theorem sentinel_values_initial :
    WaitingForDimensionsStep = -3 ∧ WaitingForRequestStep = -2 ∧
    WaitingForFirstFrameStep = -1 ∧
    initialStep = WaitingForDimensionsStep ∧ initialStep = -3 := by
  refine ⟨rfl, rfl, rfl, rfl, rfl⟩

/-- C7: `FrameRequest::valid()` returns true iff the scale factor is strictly
positive, and no other field affects validity. -/
theorem frameRequest_valid_iff :
    (∀ r : FrameRequest, r.valid = true ↔ 0 < r.factor) ∧
    (∀ r s : FrameRequest, r.factor = s.factor → r.valid = s.valid) := by
  constructor
  · intro r
    simp [FrameRequest.valid]
  · intro r s h
    simp [FrameRequest.valid, h]

theorem frameRequest_valid_iff_witness :
    (({ factor := 2 } : FrameRequest).valid = true) ∧
    ({ factor := 2, framew := 7 } : FrameRequest).valid =
      ({ factor := 2, radius := ImageRoundRadius.Large } : FrameRequest).valid :=
  ⟨(frameRequest_valid_iff.1 { factor := 2 }).2 (by decide),
   frameRequest_valid_iff.2 { factor := 2, framew := 7 }
     { factor := 2, radius := ImageRoundRadius.Large } rfl⟩

/-- C2: `frameToShow` never returns a slot whose stored request differs from
the Reader's currently live FrameRequest. -/
theorem frameToShow_request_matches (r : Reader) (f : Frame)
    (h : r.frameToShow = some f) : f.request = r.liveRequest := by
  unfold Reader.frameToShow at h
  by_cases hs : 0 ≤ r.step
  · simp only [hs, if_true] at h
    by_cases hr : (r.frames (showSlot r.step.toNat)).request = r.liveRequest
    · simp only [hr, if_pos] at h
      cases h
      exact hr
    · simp [hr] at h
  · simp [hs] at h

theorem frameToShow_request_matches_witness :
    ({ request := reqA } : Frame).request = rdrA.liveRequest :=
  frameToShow_request_matches rdrA { request := reqA } (by decide)

/-- C10: when no frame is available to show, `currentDisplayed()` returns
true; otherwise it returns whether the shown slot's displayed flag is
nonzero. -/
theorem currentDisplayed_iff (r : Reader) :
    (r.frameToShow = none → r.currentDisplayed = true) ∧
    (∀ f : Frame, r.frameToShow = some f →
      (r.currentDisplayed = true ↔ f.displayed ≠ 0)) := by
  constructor
  · intro h
    simp [Reader.currentDisplayed, h]
  · intro f h
    simp [Reader.currentDisplayed, h]

theorem currentDisplayed_iff_witness : rdrB.currentDisplayed = true :=
  (currentDisplayed_iff rdrB).1 (by decide)

/-- C4: every delivered frame satisfies positionMs <= durationMs, and in
video mode (remaining-to-end times non-increasing along delivery order) the
delivered positionMs values are non-decreasing. -/
theorem video_positions_bounded_monotone (durationMs : Int) (fromEnds : List Int)
    (hpos : ∀ x ∈ fromEnds, 0 ≤ x) :
    (∀ p ∈ deliveredPositions durationMs fromEnds, p ≤ durationMs) ∧
    (List.Chain' (fun a b => b ≤ a) fromEnds →
      List.Chain' (fun a b => a ≤ b) (deliveredPositions durationMs fromEnds)) := by
  constructor
  · intro p hp
    simp only [deliveredPositions, List.mem_map] at hp
    obtain ⟨x, hx, rfl⟩ := hp
    have := hpos x hx
    simp only [framePositionMs]
    omega
  · intro hchain
    simp only [deliveredPositions]
    rw [List.chain'_map]
    refine hchain.imp ?_
    intro a b hba
    simp only [framePositionMs]
    omega

theorem video_positions_bounded_monotone_witness :
    (∀ p ∈ deliveredPositions 10 [5, 4, 3, 1, 0], p ≤ 10) ∧
    List.Chain' (fun a b => a ≤ b) (deliveredPositions 10 [5, 4, 3, 1, 0]) :=
  ⟨(video_positions_bounded_monotone 10 [5, 4, 3, 1, 0] (by decide)).1,
   (video_positions_bounded_monotone 10 [5, 4, 3, 1, 0] (by decide)).2
     (by norm_num [List.chain'_cons])⟩

theorem takeWhile_append_all (p : Char → Bool) (l r : List Char)
    (h : ∀ c ∈ l, p c = true) : (l ++ r).takeWhile p = l ++ r.takeWhile p := by
  induction l with
  | nil => simp
  | cons a t ih =>
    have ha : p a = true := h a (List.mem_cons_self a t)
    simp only [List.cons_append, List.takeWhile_cons, ha, if_true]
    rw [ih (fun c hc => h c (List.mem_cons_of_mem a hc))]

theorem trailingDigits_append (t ds : List Char)
    (h : ∀ c ∈ ds, c.isDigit = true) :
    trailingDigits (t ++ ':' :: ds) = ds := by
  unfold trailingDigits
  have h1 : (t ++ ':' :: ds).reverse = ds.reverse ++ ':' :: t.reverse := by
    simp
  rw [h1, takeWhile_append_all _ _ _ (fun c hc => h c (List.mem_reverse.mp hc))]
  have hc : Char.isDigit ':' = false := by decide
  rw [List.takeWhile_cons, hc]
  simp

theorem take_len_succ_append (t r : List Char) (c : Char) :
    (t ++ c :: r).take (t.length + 1) = t ++ [c] := by
  induction t with
  | nil => simp
  | cons a t ih => simp [List.take_succ_cons, ih]

theorem take_sub_len_append (A B : List Char) :
    (A ++ B).take ((A ++ B).length - B.length) = A := by
  have h : (A ++ B).length - B.length = A.length := by simp
  rw [h, List.take_left]

theorem trailingDigits_suffix (s : List Char) :
    s = (s.reverse.dropWhile Char.isDigit).reverse ++ trailingDigits s := by
  unfold trailingDigits
  rw [← List.reverse_append, List.takeWhile_append_dropWhile, List.reverse_reverse]

theorem trailingDigits_all_digits (s : List Char) :
    ∀ c ∈ trailingDigits s, c.isDigit = true := by
  intro c hc
  unfold trailingDigits at hc
  rw [List.mem_reverse] at hc
  exact List.mem_takeWhile_imp hc

theorem take_before_trailingDigits (s : List Char) :
    s.take (s.length - (trailingDigits s).length) =
      (s.reverse.dropWhile Char.isDigit).reverse := by
  have hDT := trailingDigits_suffix s
  set T := trailingDigits s with hT
  set D := (s.reverse.dropWhile Char.isDigit).reverse with hD
  calc s.take (s.length - T.length)
      = (D ++ T).take ((D ++ T).length - T.length) := by rw [← hDT]
    _ = D := take_sub_len_append D T

theorem eq_dropLast_concat_of_getLast? (l : List Char) (c : Char)
    (h : l.getLast? = some c) : l = l.dropLast ++ [c] := by
  induction l with
  | nil => simp at h
  | cons a t ih =>
    cases t with
    | nil =>
      simp [List.getLast?] at h
      simp [h]
    | cons b u =>
      rw [List.getLast?_cons_cons] at h
      have ht := ih h
      calc (a :: b :: u)
          = a :: ((b :: u).dropLast ++ [c]) := by rw [← ht]
        _ = (a :: b :: u).dropLast ++ [c] := by rfl

theorem matchColonDigitsEnd_of_decomp (pre ds : List Char) (hne : ds ≠ [])
    (hdig : ∀ c ∈ ds, c.isDigit = true) :
    matchColonDigitsEnd (pre ++ ':' :: ds) = some ds := by
  unfold matchColonDigitsEnd
  rw [trailingDigits_append pre ds hdig]
  have hlen : (pre ++ ':' :: ds).length - ds.length = pre.length + 1 := by
    simp
    omega
  rw [hlen, take_len_succ_append, List.getLast?_concat]
  simp [hne]

theorem decomp_of_matchColonDigitsEnd (s ds : List Char)
    (h : matchColonDigitsEnd s = some ds) :
    ∃ pre, s = pre ++ ':' :: ds ∧ ds ≠ [] ∧ (∀ c ∈ ds, c.isDigit = true) := by
  unfold matchColonDigitsEnd at h
  split at h
  · rename_i hcond
    obtain ⟨hne, hlast⟩ := hcond
    have hds : trailingDigits s = ds := by
      injection h
    subst hds
    rw [take_before_trailingDigits] at hlast
    set D := (s.reverse.dropWhile Char.isDigit).reverse with hD
    have hDsplit := eq_dropLast_concat_of_getLast? D ':' hlast
    refine ⟨D.dropLast, ?_, hne, trailingDigits_all_digits s⟩
    calc s = D ++ trailingDigits s := trailingDigits_suffix s
      _ = (D.dropLast ++ [':']) ++ trailingDigits s := by rw [← hDsplit]
      _ = D.dropLast ++ ':' :: trailingDigits s := by simp
  · exact absurd h (by simp)

theorem chopFinalNewline_eq_self (s : List Char) (h : s.getLast? ≠ some '\n') :
    chopFinalNewline s = s := by
  unfold chopFinalNewline
  rw [if_neg h]

theorem chopFinalNewline_concat (s : List Char) :
    chopFinalNewline (s ++ ['\n']) = s := by
  unfold chopFinalNewline
  rw [if_pos (List.getLast?_concat s)]
  exact List.dropLast_concat

theorem getLast?_colon_digits_ne_newline (pre ds : List Char) (hne : ds ≠ [])
    (hdig : ∀ c ∈ ds, c.isDigit = true) :
    (pre ++ ':' :: ds).getLast? ≠ some '\n' := by
  rcases List.eq_nil_or_concat ds with h0 | ⟨ds0, c, hds⟩
  · exact absurd h0 hne
  · rw [List.concat_eq_append] at hds
    subst hds
    have hc : c.isDigit = true := hdig c (by simp)
    have hsplit : pre ++ ':' :: (ds0 ++ [c]) = (pre ++ ':' :: ds0) ++ [c] := by
      simp
    rw [hsplit, List.getLast?_concat]
    intro hcon
    injection hcon with hcc
    subst hcc
    exact absurd hc (by decide)

theorem matchColonDigitsSuffix_of_decomp (pre ds : List Char) (hne : ds ≠ [])
    (hdig : ∀ c ∈ ds, c.isDigit = true) :
    matchColonDigitsSuffix (pre ++ ':' :: ds) = some ds := by
  unfold matchColonDigitsSuffix
  rw [chopFinalNewline_eq_self _ (getLast?_colon_digits_ne_newline pre ds hne hdig)]
  exact matchColonDigitsEnd_of_decomp pre ds hne hdig

theorem matchColonDigitsSuffix_of_decomp_newline (pre ds : List Char) (hne : ds ≠ [])
    (hdig : ∀ c ∈ ds, c.isDigit = true) :
    matchColonDigitsSuffix ((pre ++ ':' :: ds) ++ ['\n']) = some ds := by
  unfold matchColonDigitsSuffix
  rw [chopFinalNewline_concat]
  exact matchColonDigitsEnd_of_decomp pre ds hne hdig

theorem decomp_of_matchColonDigitsSuffix (s ds : List Char)
    (h : matchColonDigitsSuffix s = some ds) :
    ∃ pre, (s = pre ++ ':' :: ds ∨ s = (pre ++ ':' :: ds) ++ ['\n']) ∧
      ds ≠ [] ∧ (∀ c ∈ ds, c.isDigit = true) := by
  unfold matchColonDigitsSuffix at h
  obtain ⟨pre, hchop, hne, hdig⟩ := decomp_of_matchColonDigitsEnd _ ds h
  by_cases hlast : s.getLast? = some '\n'
  · refine ⟨pre, Or.inr ?_, hne, hdig⟩
    have hs := eq_dropLast_concat_of_getLast? s '\n' hlast
    have hdl : chopFinalNewline s = s.dropLast := by
      unfold chopFinalNewline
      rw [if_pos hlast]
    rw [hdl] at hchop
    rw [← hchop]
    exact hs
  · refine ⟨pre, Or.inl ?_, hne, hdig⟩
    rw [← chopFinalNewline_eq_self s hlast]
    exact hchop

theorem tagFromMimeTag_of_match (userId : Int) (s ds : List Char)
    (hp : mentionHead.isPrefixOf s = true)
    (hm : matchColonDigitsSuffix s = some ds) :
    tagFromMimeTag userId s =
      if qToIntDigits ds ≠ userId then []
      else s.take (s.length - (ds.length + 1)) := by
  unfold tagFromMimeTag
  rw [if_pos hp, hm]

theorem tagFromMimeTag_of_no_match (userId : Int) (s : List Char)
    (hp : mentionHead.isPrefixOf s = true)
    (hm : matchColonDigitsSuffix s = none) :
    tagFromMimeTag userId s = [] := by
  unfold tagFromMimeTag
  rw [if_pos hp, hm]

theorem natDigits_ne_nil (n : Nat) : natDigits n ≠ [] := by
  rw [natDigits]
  split
  · simp
  · simp

theorem digitVal_digitChar (d : Nat) (h : d < 10) :
    digitVal (Nat.digitChar d) = d := by
  interval_cases d <;> decide

theorem isDigit_digitChar (d : Nat) (h : d < 10) :
    (Nat.digitChar d).isDigit = true := by
  interval_cases d <;> decide

theorem natDigits_all_digits (n : Nat) :
    ∀ c ∈ natDigits n, c.isDigit = true := by
  induction n using Nat.strong_induction_on with
  | _ n ih =>
    intro c hc
    rw [natDigits] at hc
    split at hc
    · rename_i h10
      simp at hc
      subst hc
      exact isDigit_digitChar n h10
    · rename_i h10
      rw [List.mem_append] at hc
      cases hc with
      | inl hmem =>
        exact ih (n / 10) (Nat.div_lt_self (by omega) (by decide)) c hmem
      | inr hmem =>
        simp at hmem
        subst hmem
        exact isDigit_digitChar (n % 10) (Nat.mod_lt _ (by decide))

theorem digitsToNat_concat (l : List Char) (c : Char) :
    digitsToNat (l ++ [c]) = 10 * digitsToNat l + digitVal c := by
  unfold digitsToNat
  rw [List.foldl_append]
  rfl

theorem digitsToNat_natDigits (n : Nat) : digitsToNat (natDigits n) = n := by
  induction n using Nat.strong_induction_on with
  | _ n ih =>
    rw [natDigits]
    split
    · rename_i h10
      show digitsToNat [Nat.digitChar n] = n
      unfold digitsToNat
      simp [digitVal_digitChar n h10]
    · rename_i h10
      rw [digitsToNat_concat]
      rw [ih (n / 10) (Nat.div_lt_self (by omega) (by decide))]
      rw [digitVal_digitChar (n % 10) (Nat.mod_lt _ (by decide))]
      omega

theorem qToIntDigits_eq_userId_iff (userId : Int) (ds : List Char)
    (h0 : 0 < userId) (h1 : userId < 2147483648) :
    (qToIntDigits ds = userId) ↔ ((digitsToNat ds : Int) = userId) := by
  unfold qToIntDigits
  split
  · exact Iff.rfl
  · rename_i hgt
    push_neg at hgt
    constructor
    · intro h2
      exfalso
      omega
    · intro h2
      exfalso
      omega

/-- C8 counterexample: on the newline-terminated mention tag
"mention://user.1:7\n" with current user id 7, the string begins with
"mention://" and does not literally end in a ":<digits>" suffix (its last
character is a newline, not a digit: its trailing digit run is empty), so the
claim as stated forces the empty string; but the code matches ":7" before the
final newline and returns mid(0, 19 - 2) = "mention://user.1:", which is not
empty. -/
theorem tagFromMimeTag_newline_counterexample :
    mentionHead.isPrefixOf (("mention://user.1:7\n").toList) = true ∧
    trailingDigits (("mention://user.1:7\n").toList) = [] ∧
    tagFromMimeTag 7 (("mention://user.1:7\n").toList) =
      ("mention://user.1:").toList ∧
    ("mention://user.1:").toList ≠ ([] : List Char) := by
  refine ⟨by decide, by decide, by decide, by decide⟩

/-- C8 (amended): a string not beginning with "mention://" is returned
unchanged.  For a string beginning with "mention://", tagFromMimeTag returns
the empty string unless the string -- up to one optional final newline, which
the dollar in Qt's regex also matches before -- ends in a ":<digits>" suffix
whose digits equal the current user id.  In that case it removes
`capturedLength()` characters from the literal end of the string: without a
final newline this removes exactly the ":<digits>" suffix; with one, the
newline and the last digits are dropped and the colon stays.  (The current
user id is an actual logged-in user id: a positive 32-bit int.) -/
theorem tagFromMimeTag_characterization (userId : Int) (s : List Char)
    (h0 : 0 < userId) (h1 : userId < 2147483648) :
    (mentionHead.isPrefixOf s = false → tagFromMimeTag userId s = s) ∧
    (mentionHead.isPrefixOf s = true →
      (∀ pre ds : List Char, s = pre ++ ':' :: ds → ds ≠ [] →
        (∀ c ∈ ds, c.isDigit = true) →
        tagFromMimeTag userId s =
          if (digitsToNat ds : Int) = userId then pre else []) ∧
      (∀ pre ds : List Char, s = (pre ++ ':' :: ds) ++ ['\n'] → ds ≠ [] →
        (∀ c ∈ ds, c.isDigit = true) →
        tagFromMimeTag userId s =
          if (digitsToNat ds : Int) = userId then pre ++ [':'] else []) ∧
      ((∀ pre ds : List Char,
          (s = pre ++ ':' :: ds ∨ s = (pre ++ ':' :: ds) ++ ['\n']) → ds ≠ [] →
          (∀ c ∈ ds, c.isDigit = true) → False) →
        tagFromMimeTag userId s = [])) := by
  refine ⟨?_, fun hp => ⟨?_, ?_, ?_⟩⟩
  · intro hp
    unfold tagFromMimeTag
    rw [if_neg (by simp [hp])]
  · intro pre ds hs hne hdig
    subst hs
    rw [tagFromMimeTag_of_match userId _ ds hp
      (matchColonDigitsSuffix_of_decomp pre ds hne hdig)]
    have hlen : (pre ++ ':' :: ds).length - (ds.length + 1) = pre.length := by
      simp
    by_cases heq : (digitsToNat ds : Int) = userId
    · have hq : qToIntDigits ds = userId :=
        (qToIntDigits_eq_userId_iff userId ds h0 h1).mpr heq
      rw [if_neg (fun hne2 => hne2 hq), if_pos heq, hlen]
      exact List.take_left pre (':' :: ds)
    · have hq : qToIntDigits ds ≠ userId :=
        fun hc => heq ((qToIntDigits_eq_userId_iff userId ds h0 h1).mp hc)
      rw [if_pos hq, if_neg heq]
  · intro pre ds hs hne hdig
    subst hs
    rw [tagFromMimeTag_of_match userId _ ds hp
      (matchColonDigitsSuffix_of_decomp_newline pre ds hne hdig)]
    have hlen : ((pre ++ ':' :: ds) ++ ['\n']).length - (ds.length + 1) =
        pre.length + 1 := by
      simp
      omega
    have htake : ((pre ++ ':' :: ds) ++ ['\n']).take (pre.length + 1) =
        pre ++ [':'] := by
      have hassoc : (pre ++ ':' :: ds) ++ ['\n'] = pre ++ ':' :: (ds ++ ['\n']) := by
        simp
      rw [hassoc]
      exact take_len_succ_append pre (ds ++ ['\n']) ':'
    by_cases heq : (digitsToNat ds : Int) = userId
    · have hq : qToIntDigits ds = userId :=
        (qToIntDigits_eq_userId_iff userId ds h0 h1).mpr heq
      rw [if_neg (fun hne2 => hne2 hq), if_pos heq, hlen, htake]
    · have hq : qToIntDigits ds ≠ userId :=
        fun hc => heq ((qToIntDigits_eq_userId_iff userId ds h0 h1).mp hc)
      rw [if_pos hq, if_neg heq]
  · intro hnone
    cases hm : matchColonDigitsSuffix s with
    | none => exact tagFromMimeTag_of_no_match userId s hp hm
    | some ds =>
      obtain ⟨pre, hs, hne, hdig⟩ := decomp_of_matchColonDigitsSuffix s ds hm
      exact (hnone pre ds hs hne hdig).elim

theorem tagFromMimeTag_characterization_witness :
    tagFromMimeTag 7 (("mention://user.1:7\n").toList) =
      (if ((digitsToNat ['7'] : Nat) : Int) = 7
       then ("mention://user.1").toList ++ [':'] else []) :=
  (((tagFromMimeTag_characterization 7 (("mention://user.1:7\n").toList)
      (by decide) (by decide)).2 (by decide)).2).1
    (("mention://user.1").toList) ['7'] (by decide) (by decide) (by decide)

/-- C9: with the current user id fixed between the two calls,
tagFromMimeTag (mimeTagFromTag tagId) = tagId: a mention tag gets
":<current user id>" appended by ConvertTagToMimeTag and that exact suffix
stripped back by tagFromMimeTag, while any other tag passes through both
functions unchanged.  (The current user id is a non-negative 32-bit int.) -/
theorem tag_roundtrip (userId : Int) (tagId : List Char)
    (h0 : 0 ≤ userId) (h1 : userId < 2147483648) :
    tagFromMimeTag userId (ConvertTagToMimeTag userId tagId) = tagId := by
  by_cases hp : mentionHead.isPrefixOf tagId = true
  · have hq : qNumber userId = natDigits userId.toNat := by
      unfold qNumber
      rw [if_neg (by omega)]
    have hform : ConvertTagToMimeTag userId tagId =
        tagId ++ ':' :: natDigits userId.toNat := by
      unfold ConvertTagToMimeTag
      rw [if_pos hp, hq]
      simp
    rw [hform]
    have hp2 : mentionHead.isPrefixOf (tagId ++ ':' :: natDigits userId.toNat) = true := by
      rw [List.isPrefixOf_iff_prefix] at hp ⊢
      exact hp.trans (List.prefix_append _ _)
    rw [tagFromMimeTag_of_match userId _ (natDigits userId.toNat) hp2
      (matchColonDigitsSuffix_of_decomp tagId _ (natDigits_ne_nil _) (natDigits_all_digits _))]
    have hv : qToIntDigits (natDigits userId.toNat) = userId := by
      unfold qToIntDigits
      rw [digitsToNat_natDigits]
      rw [if_pos (by omega)]
      omega
    rw [if_neg (fun hcon => hcon hv)]
    have hlen : (tagId ++ ':' :: natDigits userId.toNat).length -
        ((natDigits userId.toNat).length + 1) = tagId.length := by
      simp
    rw [hlen]
    exact List.take_left _ _
  · have hp' : mentionHead.isPrefixOf tagId = false := by
      cases hb : mentionHead.isPrefixOf tagId
      · rfl
      · exact absurd hb hp
    have hc : ConvertTagToMimeTag userId tagId = tagId := by
      unfold ConvertTagToMimeTag
      rw [if_neg (by simp [hp'])]
    rw [hc]
    unfold tagFromMimeTag
    rw [if_neg (by simp [hp'])]

theorem tag_roundtrip_witness :
    tagFromMimeTag 7 (ConvertTagToMimeTag 7 (("mention://user.3").toList)) =
      ("mention://user.3").toList :=
  tag_roundtrip 7 (("mention://user.3").toList) (by decide) (by decide)
